import Mathlib

/-!
Verification of the bunr release-management core against its specification.

The development shallowly embeds the TypeScript sources:
  * `src/utils/types.ts` — data model and `GitUtils` (tag parsing, commit
    range assembly, release-type derivation, package-impact aggregation);
  * `src/utils/WorkspaceUtils.ts` — workspace resolution and member lookup.

JavaScript strings are modelled as `List Char` (`Str`); `undefined`/`null`
values as `Option`; external collaborators (git queries, filesystem reads,
the conventional-commits grammar parser) as explicit parameters of an
environment record, so that every function here is a pure, executable
translation of the corresponding source function.
-/

namespace Bunr

/-- JavaScript strings are modelled as lists of characters. -/
abbrev Str := List Char

/-- Embed a Lean string literal as a `Str`. -/
def str (s : String) : Str := s.data

/-- Whitespace test used by `String.prototype.trim` (restricted to the
whitespace characters that occur in the data this program handles). -/
def isWSChar (c : Char) : Bool := c == ' ' || c == '\t' || c == '\n' || c == '\r'

/-- `String.prototype.trim`: drop whitespace from both ends. -/
def trimStr (s : Str) : Str := ((s.dropWhile isWSChar).reverse.dropWhile isWSChar).reverse

/-! ## Release types (`"major" | "minor" | "patch"`) -/

/-- The closed set of release-impact levels. -/
inductive ReleaseType where
  | patch
  | minor
  | major
deriving Repr, DecidableEq

/-- Numeric severity rank: `patch < minor < major`. -/
def rtRank : ReleaseType → Nat
  | .patch => 0
  | .minor => 1
  | .major => 2

/-- Severity order on release types. -/
def rtLe (a b : ReleaseType) : Prop := rtRank a ≤ rtRank b

instance (a b : ReleaseType) : Decidable (rtLe a b) := by
  unfold rtLe; infer_instance

/-- Maximum of two release types under the severity order. -/
def rtMax (a b : ReleaseType) : ReleaseType := if rtLe a b then b else a

theorem rtLe_refl (a : ReleaseType) : rtLe a a := Nat.le_refl _

theorem rtLe_trans {a b c : ReleaseType} (h₁ : rtLe a b) (h₂ : rtLe b c) : rtLe a c :=
  Nat.le_trans h₁ h₂

theorem rtLe_left_rtMax (a b : ReleaseType) : rtLe a (rtMax a b) := by
  cases a <;> cases b <;> decide

theorem rtLe_right_rtMax (a b : ReleaseType) : rtLe b (rtMax a b) := by
  cases a <;> cases b <;> decide

theorem rtMax_cases (a b : ReleaseType) : rtMax a b = a ∨ rtMax a b = b := by
  cases a <;> cases b <;> simp [rtMax] <;> decide

theorem rtLe_patch_eq {a : ReleaseType} (h : rtLe a .patch) : a = .patch := by
  cases a <;> first | rfl | exact absurd h (by decide)

/-! ## Commit classifier (`GitUtils.determineReleaseType`, types.ts) -/

/-- A footer note produced by the conventional-commits grammar parser
(external collaborator), e.g. a `BREAKING CHANGE` note. -/
structure CommitNote where
  title : Str
  text : Str
deriving Repr, DecidableEq

/-- Output of the external conventional-commits grammar parser
(`CommitParser().parse`): every field may be `null`/absent. -/
structure ParsedCommit where
  type : Option Str := none
  scope : Option Str := none
  subject : Option Str := none
  body : Option Str := none
  notes : List CommitNote := []
deriving Repr, DecidableEq

/-- `GitUtils.determineReleaseType`: maps a parsed commit to its semantic
version bump, translated clause for clause from the source. -/
def determineReleaseType (parsed : ParsedCommit) : ReleaseType :=
  -- Breaking changes always result in major version bump
  if parsed.notes.any (fun note => note.title == str "BREAKING CHANGE") then .major
  -- Feature commits result in minor version bump
  else if parsed.type == some (str "feat") then .minor
  -- Bug fixes and perf improvements result in patch version bump
  else if parsed.type == some (str "fix") || parsed.type == some (str "perf") then .patch
  -- All other commit types default to patch
  else .patch

/-- The spec's breaking-change condition: some note titled `BREAKING CHANGE`. -/
def hasBreakingNote (parsed : ParsedCommit) : Prop :=
  ∃ note ∈ parsed.notes, note.title = str "BREAKING CHANGE"

instance (parsed : ParsedCommit) : Decidable (hasBreakingNote parsed) := by
  unfold hasBreakingNote; infer_instance

theorem hasBreakingNote_iff_any (parsed : ParsedCommit) :
    hasBreakingNote parsed ↔
      parsed.notes.any (fun note => note.title == str "BREAKING CHANGE") = true := by
  simp [hasBreakingNote, List.any_eq_true]

/-- **C1.** Release-impact derivation follows the priority order:
breaking-change note ⇒ `major`; else type `feat` ⇒ `minor`; else type
`fix`/`perf` ⇒ `patch`; else ⇒ `patch`; and the derivation is total,
always yielding exactly one of the three levels. -/
theorem determineReleaseType_priority (parsed : ParsedCommit) :
    (hasBreakingNote parsed → determineReleaseType parsed = .major) ∧
    (¬ hasBreakingNote parsed → parsed.type = some (str "feat") →
      determineReleaseType parsed = .minor) ∧
    (¬ hasBreakingNote parsed →
      (parsed.type = some (str "fix") ∨ parsed.type = some (str "perf")) →
      determineReleaseType parsed = .patch) ∧
    (¬ hasBreakingNote parsed → parsed.type ≠ some (str "feat") →
      parsed.type ≠ some (str "fix") → parsed.type ≠ some (str "perf") →
      determineReleaseType parsed = .patch) ∧
    (determineReleaseType parsed = .major ∨ determineReleaseType parsed = .minor ∨
      determineReleaseType parsed = .patch) := by
  have hiff := hasBreakingNote_iff_any parsed
  refine ⟨?_, ?_, ?_, ?_, ?_⟩
  · intro h
    simp [determineReleaseType, hiff.mp h]
  · intro h hfeat
    rw [hasBreakingNote_iff_any] at h
    simp [determineReleaseType, Bool.eq_false_iff.mpr h, hfeat]
  · intro h htype
    rw [hasBreakingNote_iff_any] at h
    have hb := Bool.eq_false_iff.mpr h
    have hfeat : (parsed.type == some (str "feat")) = false := by
      rcases htype with ht | ht <;> (rw [ht]; decide)
    have hfp : (parsed.type == some (str "fix") || parsed.type == some (str "perf")) = true := by
      rcases htype with ht | ht <;> simp [ht]
    simp [determineReleaseType, hb, hfeat, hfp]
  · intro h h1 h2 h3
    rw [hasBreakingNote_iff_any] at h
    have hb := Bool.eq_false_iff.mpr h
    have e1 : (parsed.type == some (str "feat")) = false := by simpa using h1
    have e2 : (parsed.type == some (str "fix")) = false := by simpa using h2
    have e3 : (parsed.type == some (str "perf")) = false := by simpa using h3
    simp [determineReleaseType, hb, e1, e2, e3]
  · unfold determineReleaseType
    split
    · exact Or.inl rfl
    · split
      · exact Or.inr (Or.inl rfl)
      · split <;> exact Or.inr (Or.inr rfl)

/-- Sample parsed commit: a `fix`-typed commit carrying a breaking-change note. -/
def sampleBreakingFix : ParsedCommit :=
  { type := some (str "fix"), subject := some (str "drop legacy api"),
    notes := [⟨str "BREAKING CHANGE", str "legacy api removed"⟩] }

/-- Witness for C1: a `fix` commit with a breaking-change note classifies as `major`. -/
theorem determineReleaseType_priority_witness :
    hasBreakingNote sampleBreakingFix ∧ determineReleaseType sampleBreakingFix = .major := by
  have h : hasBreakingNote sampleBreakingFix := by decide
  exact ⟨h, (determineReleaseType_priority sampleBreakingFix).1 h⟩

/-! ## Tag/version indexer (`GitUtils.getAllTags`, `getLatestVersionTag`) -/

/-- Parsed semantic-version components of a version tag. -/
structure SemVerParts where
  major : Nat
  minor : Nat
  patch : Nat
  prerelease : Str
deriving Repr, DecidableEq

/-- A git tag record.  The creation date is kept as the raw ISO8601 string
handed to `new Date(...)`; nothing in the core inspects the parsed date. -/
structure GitTag where
  name : Str
  hash : Str
  dateStr : Str
  isVersionTag : Bool
  version : Option SemVerParts
deriving Repr, DecidableEq

/-- `parseInt(decimalDigits, 10)` on a digit string. -/
def digitsToNat (ds : Str) : Nat := ds.foldl (fun n c => n * 10 + (c.toNat - '0'.toNat)) 0

/-- Split a string into its maximal leading digit run and the remainder. -/
def takeDigits (s : Str) : Str × Str := (s.takeWhile (·.isDigit), s.dropWhile (·.isDigit))

/-- The version-tag regex `^v?(\d+)\.(\d+)\.(\d+)(?:-(.+))?$`, as a
deterministic parser returning the four capture groups. -/
def matchVersionName (name : Str) : Option (Str × Str × Str × Option Str) :=
  let rest := match name with
    | 'v' :: t => t
    | t => t
  let (d1, r1) := takeDigits rest
  if d1 = [] then none else
  match r1 with
  | '.' :: r2 =>
    let (d2, r3) := takeDigits r2
    if d2 = [] then none else
    match r3 with
    | '.' :: r4 =>
      let (d3, r5) := takeDigits r4
      if d3 = [] then none else
      match r5 with
      | [] => some (d1, d2, d3, none)
      | '-' :: pre => if pre = [] then none else some (d1, d2, d3, some pre)
      | _ => none
    | _ => none
  | _ => none

/-- Body of the `getAllTags` loop for one raw line: split on tabs,
destructure the first three fields, skip the line if any is missing or
empty (JS falsiness), and otherwise build the tag record with the
version-regex result (`prerelease: versionMatch[4] || "none"`). -/
def parseTagFields : List Str → Option GitTag
  | hash :: dateStr :: name :: _ =>
    if hash = [] ∨ dateStr = [] ∨ name = [] then none
    else
      let vm := matchVersionName name
      some { name := name, hash := hash, dateStr := dateStr,
             isVersionTag := vm.isSome,
             version := vm.map (fun g =>
               ⟨digitsToNat g.1, digitsToNat g.2.1, digitsToNat g.2.2.1,
                match g.2.2.2 with
                | some p => p
                | none => str "none"⟩) }
  | _ => none

/-- One raw tag line: split on tabs and process the fields. -/
def parseTagLine (line : Str) : Option GitTag := parseTagFields (line.splitOn '\t')

/-- `GitUtils.getAllTags`: the raw tag-listing collaborator either fails
(`none`: the `catch` branch warns and yields `[]`) or supplies the raw
lines, each non-blank line being parsed by `parseTagLine`.  The boolean
records whether the warning branch was taken. -/
def getAllTags (rawTagLines : Option (List Str)) : List GitTag × Bool :=
  match rawTagLines with
  | none => ([], true)
  | some lines => ((lines.filter (fun l => trimStr l != [])).filterMap parseTagLine, false)

/-- `GitUtils.getLatestVersionTag`: first tag marked as a semantic version. -/
def getLatestVersionTag (rawTagLines : Option (List Str)) : Option GitTag :=
  (getAllTags rawTagLines).1.find? (·.isVersionTag)

/-- The spec's round-trip example line. -/
def goodTagLine : Str := str "abc1234\t2024-01-15T10:00:00+00:00\tv2.3.1-beta"

/-- The spec's malformed example line (missing the name field). -/
def badTagLine : Str := str "abc1234\t2024-01-15"

/-- The tag record the round-trip example must produce. -/
def goodTag : GitTag :=
  { name := str "v2.3.1-beta", hash := str "abc1234",
    dateStr := str "2024-01-15T10:00:00+00:00", isVersionTag := true,
    version := some ⟨2, 3, 1, str "beta"⟩ }

/-- **C6.** Tag-line parsing: tab-delimited fields are extracted (hash,
date, name); a line missing any field is dropped silently; version-tag
detection accepts `v?major.minor.patch(-prerelease)?` with base-10 numeric
components and prerelease defaulting to `"none"`; and the spec's concrete
example parses exactly as stated. -/
theorem parseTagLine_spec :
    parseTagLine goodTagLine = some goodTag ∧
    parseTagLine badTagLine = none ∧
    getAllTags (some [goodTagLine, badTagLine]) = ([goodTag], false) ∧
    (parseTagLine (str "x\t2024-01-15T10:00:00+00:00\t1.0.0") = some
      { name := str "1.0.0", hash := str "x",
        dateStr := str "2024-01-15T10:00:00+00:00", isVersionTag := true,
        version := some ⟨1, 0, 0, str "none"⟩ }) ∧
    (∀ (line h d n : Str) (rest : List Str),
      line.splitOn '\t' = h :: d :: n :: rest → h ≠ [] → d ≠ [] → n ≠ [] →
      ∃ t, parseTagLine line = some t ∧ t.hash = h ∧ t.dateStr = d ∧ t.name = n) := by
  refine ⟨by decide, by decide, by decide, by decide, ?_⟩
  intro line h d n rest hsplit hh hd hn
  unfold parseTagLine
  rw [hsplit, parseTagFields, if_neg (by simp [hh, hd, hn])]
  exact ⟨_, rfl, rfl, rfl, rfl⟩

/-- Witness for C6's general clause, instantiated at the round-trip line. -/
theorem parseTagLine_spec_witness :
    goodTagLine.splitOn '\t' =
      str "abc1234" :: str "2024-01-15T10:00:00+00:00" :: str "v2.3.1-beta" :: [] ∧
    ∃ t, parseTagLine goodTagLine = some t ∧ t.hash = str "abc1234" ∧
      t.dateStr = str "2024-01-15T10:00:00+00:00" ∧ t.name = str "v2.3.1-beta" := by
  refine ⟨by decide, ?_⟩
  exact parseTagLine_spec.2.2.2.2 goodTagLine _ _ _ [] (by decide)
    (by decide) (by decide) (by decide)

/-- **C10.** When the tag-listing query fails, `getAllTags` warns and
returns the empty list instead of propagating an error, and
`getLatestVersionTag` consequently returns none. -/
theorem getAllTags_failure_empty :
    getAllTags none = ([], true) ∧ getLatestVersionTag none = none :=
  ⟨rfl, rfl⟩

/-! ## POSIX path normalization (`path.normalize`) and file membership
(`GitUtils.isFileInPackage`) -/

/-- One step of Node's `normalizeString` segment resolution: push a path
segment onto the (reversed) segment stack, resolving `""`, `"."` and
`".."` (with `allowUp` = the path is relative, so `..` may climb above
the start). -/
def pushSeg (allowUp : Bool) (stack : List Str) (seg : Str) : List Str :=
  if seg = [] ∨ seg = ['.'] then stack
  else if seg = ['.', '.'] then
    match stack with
    | [] => if allowUp then [seg] else []
    | top :: rest => if top = ['.', '.'] then (if allowUp then seg :: top :: rest else top :: rest) else rest
  else seg :: stack

/-- Node's `path.posix.normalize`. -/
def posixNormalize (p : Str) : Str :=
  if p = [] then ['.']
  else
    let isAbs := p.head? = some '/'
    let trailing := p.getLast? = some '/'
    let segs := ((p.splitOn '/').foldl (pushSeg (!isAbs)) []).reverse
    let core := List.intercalate ['/'] segs
    if core = [] then
      if isAbs then ['/'] else if trailing then ['.', '/'] else ['.']
    else
      let withTrail := if trailing then core ++ ['/'] else core
      if isAbs then '/' :: withTrail else withTrail

/-- `GitUtils.isFileInPackage`: does a changed file belong to a workspace
member's directory?  `path.sep` is `'/'` (POSIX). -/
def isFileInPackage (filePath packagePath : Str) : Bool :=
  let normalizedFilePath := posixNormalize filePath
  let normalizedPackagePath := posixNormalize packagePath
  -- Handle root package case
  if normalizedPackagePath = ['.'] ∨ normalizedPackagePath = [] then
    !(normalizedFilePath.contains '/') || (str ".").isPrefixOf normalizedFilePath
  else
    (normalizedPackagePath ++ ['/']).isPrefixOf normalizedFilePath ||
      normalizedFilePath == normalizedPackagePath

/-- The claim's reading of the root-member rule: the file has no path
separator, or it is a dotfile sitting at the repository root (leading dot
and no separator). -/
def rootMatchClaimed (filePath : Str) : Prop :=
  ¬ ('/' ∈ filePath) ∨ (filePath.head? = some '.' ∧ ¬ ('/' ∈ filePath))

instance (filePath : Str) : Decidable (rootMatchClaimed filePath) := by
  unfold rootMatchClaimed; infer_instance

/-- **C7 counterexample.** A file nested under a root dot-directory,
`.github/workflows/ci.yml`, contains path separators and is not a dotfile
at the repository root, yet the root member's membership test accepts it:
the claimed iff fails. -/
theorem isFileInPackage_root_counterexample :
    isFileInPackage (str ".github/workflows/ci.yml") (str ".") = true ∧
    ¬ rootMatchClaimed (str ".github/workflows/ci.yml") := by
  constructor
  · decide
  · decide

theorem isPrefixOf_dot_iff (l : Str) :
    ((str ".").isPrefixOf l) = true ↔ l.head? = some '.' := by
  cases l with
  | nil => decide
  | cons c t =>
    show (('.' == c) && List.isPrefixOf [] t) = true ↔ (c :: t).head? = some '.'
    rw [List.isPrefixOf, Bool.and_true, List.head?_cons]
    constructor
    · intro h
      rw [← eq_of_beq h]
    · intro h
      have hc : c = '.' := Option.some.inj h
      rw [hc]
      decide

theorem contains_eq_false_iff (l : Str) (c : Char) : (l.contains c = false) ↔ c ∉ l := by
  have h : l.contains c = List.elem c l := rfl
  rw [h, ← Bool.not_eq_true, List.elem_iff]

/-- **C7 amended.** The root member (relative path `"."` or `""`) matches a
changed file iff the normalized file path contains no path separator or
begins with a dot — so files nested under root dot-directories (e.g.
`.github/workflows/ci.yml`) are also attributed to the root member, and
files of nested members are otherwise not attributed to it. -/
theorem isFileInPackage_root_iff :
    (∀ filePath : Str,
      isFileInPackage filePath (str ".") = true ↔
        (¬ ('/' ∈ posixNormalize filePath) ∨ (posixNormalize filePath).head? = some '.')) ∧
    isFileInPackage (str "packages/a/x.ts") (str ".") = false := by
  constructor
  · intro filePath
    have hroot : posixNormalize (str ".") = ['.'] := by decide
    unfold isFileInPackage
    rw [hroot]
    have hcond : ((['.'] : Str) = ['.'] ∨ (['.'] : Str) = []) := Or.inl rfl
    rw [if_pos hcond, Bool.or_eq_true, Bool.not_eq_true', isPrefixOf_dot_iff,
      contains_eq_false_iff]
  · decide

/-! ## Workspace members and `WorkspaceUtils.findPackageByPath` -/

/-- A workspace member (`WorkspaceMember` in types.ts). -/
structure WorkspaceMember where
  name : Str
  path : Str
  relativePath : Str
  version : Str
  publishable : Bool
  isPrivate : Bool
deriving Repr, DecidableEq

/-- `WorkspaceUtils.findPackageByPath`, applied to an already-resolved
member list: exact relative-path match first, then the containment loop
(`relativePath.startsWith(pkg.relativePath + path.sep) || relativePath ===
pkg.relativePath`, with `path.sep = '/'`). -/
def findPackageByPathIn (packages : List WorkspaceMember) (relativePath : Str) :
    Option WorkspaceMember :=
  match packages.find? (fun pkg => pkg.relativePath == relativePath) with
  | some exactMatch => some exactMatch
  | none => packages.find? (fun pkg =>
      (pkg.relativePath ++ ['/']).isPrefixOf relativePath ||
        pkg.relativePath == relativePath)

/-- The spec's matching notion: the queried path is a descendant of the
member's relative path, i.e. the member path followed by a path separator
is a prefix of the query (a separator-bounded prefix, not a naive string
prefix). -/
def specDescendant (query memberPath : Str) : Bool :=
  decide ((memberPath ++ ['/']) <+: query)

theorem find?_congr_mem {α : Type} (l : List α) (p q : α → Bool)
    (h : ∀ a ∈ l, p a = q a) : l.find? p = l.find? q := by
  induction l with
  | nil => rfl
  | cons x xs ih =>
    have hx := h x (List.mem_cons_self x xs)
    rw [List.find?_cons, List.find?_cons, hx]
    cases q x
    · exact ih (fun a ha => h a (List.mem_cons_of_mem x ha))
    · rfl

/-- Sample members for the spec's disambiguation example. -/
def memberA : WorkspaceMember :=
  ⟨str "a", str "/repo/packages/a", str "packages/a", str "1.0.0", false, false⟩

/-- A hypothetical sibling member whose path is a naive string prefix of
queries under `packages/a` but not a separator-bounded one. -/
def memberAB : WorkspaceMember :=
  ⟨str "ab", str "/repo/packages/ab", str "packages/ab", str "1.0.0", false, false⟩

/-- **C5.** `findPackageByPath` returns an exact relative-path match when
one exists, and otherwise the first member of the list whose relative path
is a separator-bounded prefix of the query (descendant match); querying
`packages/a/src/x.ts` against members `packages/a` and `packages/ab`
resolves to `packages/a` (and never to `packages/ab`, whichever order the
two appear in). -/
theorem findPackageByPathIn_spec :
    (∀ (packages : List WorkspaceMember) (query : Str),
      findPackageByPathIn packages query =
        match packages.find? (fun pkg => pkg.relativePath == query) with
        | some exactMatch => some exactMatch
        | none => packages.find? (fun pkg => specDescendant query pkg.relativePath)) ∧
    findPackageByPathIn [memberA, memberAB] (str "packages/a/src/x.ts") = some memberA ∧
    findPackageByPathIn [memberAB, memberA] (str "packages/a/src/x.ts") = some memberA := by
  refine ⟨?_, by decide, by decide⟩
  intro packages query
  unfold findPackageByPathIn
  cases hexact : packages.find? (fun pkg => pkg.relativePath == query) with
  | some m => rfl
  | none =>
    have hall := List.find?_eq_none.mp hexact
    refine find?_congr_mem packages _ _ ?_
    intro pkg hmem
    have hne : (pkg.relativePath == query) = false :=
      Bool.eq_false_iff.mpr (hall pkg hmem)
    rw [hne, Bool.or_false]
    rw [Bool.eq_iff_iff]
    constructor
    · intro h
      exact decide_eq_true (List.isPrefixOf_iff_prefix.mp h)
    · intro h
      exact List.isPrefixOf_iff_prefix.mpr (of_decide_eq_true h)

/-! ## Package impact aggregator (`GitUtils.analyzePackageChanges`) -/

/-- Author block of a conventional commit record. -/
structure CommitAuthor where
  name : Str
  email : Str
  dateStr : Str
deriving Repr, DecidableEq

/-- A fully assembled conventional commit record (`ConventionalCommit`). -/
structure ConventionalCommit where
  hash : Str
  shortHash : Str
  rawMessage : Str
  type : Str
  scope : Option Str
  description : Str
  body : Option Str
  breakingChange : Option Str
  isBreaking : Bool
  releaseType : ReleaseType
  author : CommitAuthor
  changedFiles : List Str
deriving Repr, DecidableEq

/-- Per-package accumulated impact (`PackageChanges`). -/
structure PackageChanges where
  packageName : Str
  packagePath : Str
  affectingCommits : List ConventionalCommit
  suggestedReleaseType : ReleaseType
deriving Repr, DecidableEq

/-- The name/relativePath pairs `analyzePackageChanges` receives. -/
structure PkgRef where
  name : Str
  relativePath : Str
deriving Repr, DecidableEq

/-- JS `Map` modelled as an insertion-ordered association list. -/
abbrev PkgMap := List (Str × PackageChanges)

/-- `Map.prototype.get`. -/
def mapGet (m : PkgMap) (k : Str) : Option PackageChanges :=
  match m.find? (fun e => e.1 == k) with
  | some e => some e.2
  | none => none

/-- `Map.prototype.set`: replace the entry in place when the key exists
(JS maps keep the original insertion position), append otherwise. -/
def mapSet (m : PkgMap) (k : Str) (v : PackageChanges) : PkgMap :=
  match m with
  | [] => [(k, v)]
  | e :: rest => if e.1 == k then (k, v) :: rest else e :: mapSet rest k v

/-- Initialization loop: one zero-state record per workspace package. -/
def initPkgMap (pkgs : List PkgRef) : PkgMap :=
  pkgs.foldl (fun m pkg =>
    mapSet m pkg.name ⟨pkg.name, pkg.relativePath, [], .patch⟩) []

/-- `Set.prototype.add` on an insertion-ordered duplicate-free list. -/
def insertName (l : List Str) (x : Str) : List Str :=
  if x ∈ l then l else l ++ [x]

/-- The per-commit `affectedPackages` set: every package one of the
commit's changed files belongs to, in insertion order. -/
def affectedPackagesOf (pkgs : List PkgRef) (c : ConventionalCommit) : List Str :=
  c.changedFiles.foldl (fun acc changedFile =>
    pkgs.foldl (fun acc2 pkg =>
      if isFileInPackage changedFile pkg.relativePath then insertName acc2 pkg.name
      else acc2) acc) []

/-- The release-type update clause: upgrade to the commit's level when it
is `major`, or when it is `minor` and the current level is `patch`. -/
def updateLevel (cur rt : ReleaseType) : ReleaseType :=
  if rt = .major ∨ (rt = .minor ∧ cur = .patch) then rt else cur

/-- Update loop body for one affected package name. -/
def applyToName (c : ConventionalCommit) (m : PkgMap) (name : Str) : PkgMap :=
  match mapGet m name with
  | none => m
  | some packageChanges =>
      mapSet m name
        { packageChanges with
          affectingCommits := packageChanges.affectingCommits ++ [c],
          suggestedReleaseType :=
            updateLevel packageChanges.suggestedReleaseType c.releaseType }

/-- Process one commit: attribute it to every affected package. -/
def applyCommitToMap (pkgs : List PkgRef) (m : PkgMap) (c : ConventionalCommit) : PkgMap :=
  (affectedPackagesOf pkgs c).foldl (applyToName c) m

/-- The state of the map after processing all commits. -/
def analyzeState (commits : List ConventionalCommit) (pkgs : List PkgRef) : PkgMap :=
  commits.foldl (applyCommitToMap pkgs) (initPkgMap pkgs)

/-- `GitUtils.analyzePackageChanges`: fold all commits through the map and
keep only packages affected by at least one commit. -/
def analyzePackageChanges (commits : List ConventionalCommit) (pkgs : List PkgRef) :
    List PackageChanges :=
  ((analyzeState commits pkgs).map (·.2)).filter
    (fun pkg => decide (0 < pkg.affectingCommits.length))

/-- Aggregated level tracked for a package name (`patch` zero-state when
the name is not in the map). -/
def levelOfMap (m : PkgMap) (name : Str) : ReleaseType :=
  match mapGet m name with
  | some packageChanges => packageChanges.suggestedReleaseType
  | none => .patch

def aggLevel (commits : List ConventionalCommit) (pkgs : List PkgRef) (name : Str) :
    ReleaseType :=
  levelOfMap (analyzeState commits pkgs) name

/-! ### Map lemmas -/

theorem mapGet_mapSet_same (m : PkgMap) (k : Str) (v : PackageChanges) :
    mapGet (mapSet m k v) k = some v := by
  induction m with
  | nil => simp [mapGet, mapSet, List.find?]
  | cons e rest ih =>
    by_cases h : (e.1 == k) = true
    · simp [mapSet, h, mapGet, List.find?]
    · have h' : (e.1 == k) = false := Bool.eq_false_iff.mpr h
      simp only [mapSet, h', Bool.false_eq_true, if_false]
      simpa [mapGet, List.find?_cons, h'] using ih

theorem mapGet_mapSet_ne (m : PkgMap) (k k' : Str) (v : PackageChanges)
    (h : ¬ k' = k) : mapGet (mapSet m k v) k' = mapGet m k' := by
  have hkk : (k == k') = false := by
    refine Bool.eq_false_iff.mpr ?_
    intro hc
    exact h (eq_of_beq hc).symm
  induction m with
  | nil => simp [mapGet, mapSet, List.find?, hkk]
  | cons e rest ih =>
    by_cases he : (e.1 == k) = true
    · have he1 : e.1 = k := eq_of_beq he
      simp only [mapSet, he, if_true]
      simp [mapGet, List.find?_cons, hkk, he1]
    · have he' : (e.1 == k) = false := Bool.eq_false_iff.mpr he
      simp only [mapSet, he', Bool.false_eq_true, if_false]
      by_cases hf : (e.1 == k') = true
      · simp [mapGet, List.find?_cons, hf]
      · have hf' : (e.1 == k') = false := Bool.eq_false_iff.mpr hf
        simpa [mapGet, List.find?_cons, hf'] using ih

theorem mem_mapSet (m : PkgMap) (k : Str) (v : PackageChanges) (e : Str × PackageChanges)
    (h : e ∈ mapSet m k v) : e = (k, v) ∨ e ∈ m := by
  induction m with
  | nil => simpa [mapSet] using h
  | cons f rest ih =>
    by_cases hf : (f.1 == k) = true
    · simp only [mapSet, hf, if_true] at h
      rcases List.mem_cons.mp h with h1 | h1
      · exact Or.inl h1
      · exact Or.inr (List.mem_cons_of_mem f h1)
    · have hf' : (f.1 == k) = false := Bool.eq_false_iff.mpr hf
      simp only [mapSet, hf', Bool.false_eq_true, if_false] at h
      rcases List.mem_cons.mp h with h1 | h1
      · exact Or.inr (h1 ▸ List.mem_cons_self f rest)
      · rcases ih h1 with h2 | h2
        · exact Or.inl h2
        · exact Or.inr (List.mem_cons_of_mem f h2)

theorem mapGet_mem (m : PkgMap) (k : Str) (pc : PackageChanges)
    (h : mapGet m k = some pc) : ∃ e ∈ m, e.2 = pc ∧ e.1 = k := by
  unfold mapGet at h
  cases hf : m.find? (fun e => e.1 == k) with
  | none => rw [hf] at h; cases h
  | some e =>
    rw [hf] at h
    have hp := List.find?_some hf
    simp only [beq_iff_eq] at hp
    exact ⟨e, List.mem_of_find?_eq_some hf, Option.some.inj h, hp⟩

/-! ### Level invariant: the tracked level is the max-fold of the
attributed commits' levels -/

theorem updateLevel_eq_rtMax (cur rt : ReleaseType) : updateLevel cur rt = rtMax cur rt := by
  cases cur <;> cases rt <;> decide

theorem rtLe_updateLevel (cur rt : ReleaseType) : rtLe cur (updateLevel cur rt) := by
  cases cur <;> cases rt <;> decide

/-- Per-entry invariant of the analysis map. -/
def InvLevel (m : PkgMap) : Prop :=
  ∀ e ∈ m, e.2.suggestedReleaseType =
    (e.2.affectingCommits.map (·.releaseType)).foldl rtMax .patch

theorem invLevel_mapSet (m : PkgMap) (k : Str) (v : PackageChanges)
    (hm : InvLevel m)
    (hv : v.suggestedReleaseType =
      (v.affectingCommits.map (·.releaseType)).foldl rtMax .patch) :
    InvLevel (mapSet m k v) := by
  intro e he
  rcases mem_mapSet m k v e he with rfl | hmem
  · exact hv
  · exact hm e hmem

theorem invLevel_initPkgMap (pkgs : List PkgRef) : InvLevel (initPkgMap pkgs) := by
  unfold initPkgMap
  suffices h : ∀ (l : List PkgRef) (m : PkgMap), InvLevel m →
      InvLevel (l.foldl (fun m pkg =>
        mapSet m pkg.name ⟨pkg.name, pkg.relativePath, [], .patch⟩) m) by
    exact h pkgs [] (by intro e he; cases he)
  intro l
  induction l with
  | nil => intro m hm; exact hm
  | cons p ps ih =>
    intro m hm
    rw [List.foldl_cons]
    exact ih _ (invLevel_mapSet m p.name _ hm rfl)

theorem invLevel_applyToName (c : ConventionalCommit) (m : PkgMap) (n : Str)
    (hm : InvLevel m) : InvLevel (applyToName c m n) := by
  unfold applyToName
  cases hg : mapGet m n with
  | none => exact hm
  | some pc =>
    obtain ⟨e, hmem, he, -⟩ := mapGet_mem m n pc hg
    have hpc : pc.suggestedReleaseType =
        (pc.affectingCommits.map (·.releaseType)).foldl rtMax .patch := by
      rw [← he]; exact hm e hmem
    refine invLevel_mapSet m n _ hm ?_
    show updateLevel pc.suggestedReleaseType c.releaseType =
      ((pc.affectingCommits ++ [c]).map (·.releaseType)).foldl rtMax .patch
    rw [List.map_append, List.foldl_append, updateLevel_eq_rtMax, hpc]
    rfl

theorem invLevel_applyCommit (pkgs : List PkgRef) (c : ConventionalCommit) (m : PkgMap)
    (hm : InvLevel m) : InvLevel (applyCommitToMap pkgs m c) := by
  unfold applyCommitToMap
  generalize affectedPackagesOf pkgs c = names
  induction names generalizing m with
  | nil => exact hm
  | cons n ns ih =>
    rw [List.foldl_cons]
    exact ih _ (invLevel_applyToName c m n hm)

theorem invLevel_analyzeState (commits : List ConventionalCommit) (pkgs : List PkgRef) :
    InvLevel (analyzeState commits pkgs) := by
  unfold analyzeState
  suffices h : ∀ (cs : List ConventionalCommit) (m : PkgMap), InvLevel m →
      InvLevel (cs.foldl (applyCommitToMap pkgs) m) by
    exact h commits _ (invLevel_initPkgMap pkgs)
  intro cs
  induction cs with
  | nil => intro m hm; exact hm
  | cons c rest ih =>
    intro m hm
    rw [List.foldl_cons]
    exact ih _ (invLevel_applyCommit pkgs c m hm)

/-! ### Max-fold facts -/

theorem foldl_rtMax_init_le (l : List ReleaseType) (a : ReleaseType) :
    rtLe a (l.foldl rtMax a) := by
  induction l generalizing a with
  | nil => exact rtLe_refl a
  | cons x xs ih => exact rtLe_trans (rtLe_left_rtMax a x) (ih (rtMax a x))

theorem foldl_rtMax_mem_le (l : List ReleaseType) :
    ∀ (a x : ReleaseType), x ∈ l → rtLe x (l.foldl rtMax a) := by
  induction l with
  | nil => intro a x hx; cases hx
  | cons y ys ih =>
    intro a x hx
    rcases List.mem_cons.mp hx with rfl | hmem
    · exact rtLe_trans (rtLe_right_rtMax a x) (foldl_rtMax_init_le ys (rtMax a x))
    · exact ih (rtMax a y) x hmem

theorem foldl_rtMax_attained (l : List ReleaseType) (a : ReleaseType) :
    l.foldl rtMax a = a ∨ l.foldl rtMax a ∈ l := by
  induction l generalizing a with
  | nil => exact Or.inl rfl
  | cons x xs ih =>
    rw [List.foldl_cons]
    rcases ih (rtMax a x) with h | h
    · rcases rtMax_cases a x with h2 | h2
      · exact Or.inl (by rw [h, h2])
      · exact Or.inr (by rw [h, h2]; exact List.mem_cons_self _ _)
    · exact Or.inr (List.mem_cons_of_mem x h)

/-! ### Monotonicity of the tracked level -/

theorem levelOfMap_applyToName_mono (c : ConventionalCommit) (m : PkgMap) (n name : Str) :
    rtLe (levelOfMap m name) (levelOfMap (applyToName c m n) name) := by
  unfold applyToName
  cases hg : mapGet m n with
  | none => exact rtLe_refl _
  | some pc =>
    by_cases heq : name = n
    · subst heq
      unfold levelOfMap
      rw [mapGet_mapSet_same, hg]
      exact rtLe_updateLevel pc.suggestedReleaseType c.releaseType
    · unfold levelOfMap
      rw [mapGet_mapSet_ne m n name _ heq]
      exact rtLe_refl _

theorem levelOfMap_applyCommit_mono (pkgs : List PkgRef) (c : ConventionalCommit)
    (m : PkgMap) (name : Str) :
    rtLe (levelOfMap m name) (levelOfMap (applyCommitToMap pkgs m c) name) := by
  unfold applyCommitToMap
  generalize affectedPackagesOf pkgs c = names
  induction names generalizing m with
  | nil => exact rtLe_refl _
  | cons n ns ih =>
    rw [List.foldl_cons]
    exact rtLe_trans (levelOfMap_applyToName_mono c m n name) (ih _)

theorem analyzeState_append_one (commits : List ConventionalCommit) (pkgs : List PkgRef)
    (c : ConventionalCommit) :
    analyzeState (commits ++ [c]) pkgs =
      applyCommitToMap pkgs (analyzeState commits pkgs) c := by
  unfold analyzeState
  rw [List.foldl_append, List.foldl_cons, List.foldl_nil]

/-- **C4.** Every reported package's aggregated level is the maximum (under
`patch < minor < major`) of its attributed commits' levels: it bounds each
of them and is attained by one of them; packages with no attributed
commits are dropped; and processing an additional commit never decreases
the level tracked for any package (monotonic max-fold). -/
theorem analyzePackageChanges_max_fold (commits : List ConventionalCommit)
    (pkgs : List PkgRef) :
    (∀ pc ∈ analyzePackageChanges commits pkgs,
        pc.affectingCommits ≠ [] ∧
        (∀ c ∈ pc.affectingCommits, rtLe c.releaseType pc.suggestedReleaseType) ∧
        (∃ c ∈ pc.affectingCommits, c.releaseType = pc.suggestedReleaseType)) ∧
    (∀ (c : ConventionalCommit) (name : Str),
        rtLe (aggLevel commits pkgs name) (aggLevel (commits ++ [c]) pkgs name)) := by
  constructor
  · intro pc hpc
    unfold analyzePackageChanges at hpc
    obtain ⟨hmap, hfilter⟩ := List.mem_filter.mp hpc
    obtain ⟨e, hmem, he⟩ := List.mem_map.mp hmap
    have hne : pc.affectingCommits ≠ [] := by
      intro hnil
      rw [hnil] at hfilter
      exact absurd (of_decide_eq_true hfilter) (by simp)
    have hinv : pc.suggestedReleaseType =
        (pc.affectingCommits.map (·.releaseType)).foldl rtMax .patch := by
      rw [← he]
      exact invLevel_analyzeState commits pkgs e hmem
    refine ⟨hne, ?_, ?_⟩
    · intro c hc
      rw [hinv]
      exact foldl_rtMax_mem_le _ _ _
        (List.mem_map_of_mem (fun c : ConventionalCommit => c.releaseType) hc)
    · rcases foldl_rtMax_attained (pc.affectingCommits.map (·.releaseType)) .patch with
        hp | hmem2
      · cases hlist : pc.affectingCommits with
        | nil => exact absurd hlist hne
        | cons c0 cs =>
          have hc0 : c0 ∈ pc.affectingCommits := by simp [hlist]
          refine ⟨c0, by simp, ?_⟩
          have hub : rtLe c0.releaseType pc.suggestedReleaseType := by
            rw [hinv]
            exact foldl_rtMax_mem_le _ _ _
              (List.mem_map_of_mem (fun c : ConventionalCommit => c.releaseType) hc0)
          rw [hinv, hp] at hub ⊢
          exact rtLe_patch_eq hub
      · rw [hinv]
        obtain ⟨c, hc, hcrt⟩ := List.mem_map.mp hmem2
        exact ⟨c, hc, hcrt⟩
  · intro c name
    unfold aggLevel
    rw [analyzeState_append_one]
    exact levelOfMap_applyCommit_mono pkgs c _ name

/-- Sample package list: one member rooted at `packages/a`. -/
def samplePkgs : List PkgRef := [⟨str "a", str "packages/a"⟩]

/-- Sample minor-impact commit touching `packages/a`. -/
def commitMinor : ConventionalCommit :=
  { hash := str "c1full", shortHash := str "c1", rawMessage := str "feat: x",
    type := str "feat", scope := none, description := str "x", body := none,
    breakingChange := none, isBreaking := false, releaseType := .minor,
    author := ⟨str "A", str "a@example.com", str "2024-01-01T00:00:00+00:00"⟩,
    changedFiles := [str "packages/a/x.ts"] }

/-- Sample major-impact commit touching `packages/a` through two files. -/
def commitMajor : ConventionalCommit :=
  { hash := str "c2full", shortHash := str "c2", rawMessage := str "feat!: y",
    type := str "feat", scope := none, description := str "y", body := none,
    breakingChange := some (str "y"), isBreaking := true, releaseType := .major,
    author := ⟨str "A", str "a@example.com", str "2024-01-02T00:00:00+00:00"⟩,
    changedFiles := [str "packages/a/y.ts", str "packages/a/z.ts"] }

/-- The two sample commits, oldest first. -/
def sampleCommits : List ConventionalCommit := [commitMinor, commitMajor]

/-- The package-impact record the sample run must produce. -/
def samplePC : PackageChanges :=
  { packageName := str "a", packagePath := str "packages/a",
    affectingCommits := [commitMinor, commitMajor], suggestedReleaseType := .major }

/-- Witness for C4, instantiated at the sample run. -/
theorem analyzePackageChanges_max_fold_witness :
    samplePC ∈ analyzePackageChanges sampleCommits samplePkgs ∧
    (samplePC.affectingCommits ≠ [] ∧
      (∀ c ∈ samplePC.affectingCommits, rtLe c.releaseType samplePC.suggestedReleaseType) ∧
      (∃ c ∈ samplePC.affectingCommits, c.releaseType = samplePC.suggestedReleaseType)) :=
  ⟨by decide, (analyzePackageChanges_max_fold sampleCommits samplePkgs).1 samplePC (by decide)⟩

/-! ### No duplicate attribution (C9) -/

theorem sublist_weaken {l cs : List ConventionalCommit} (c : ConventionalCommit)
    (h : List.Sublist l cs) : List.Sublist l (cs ++ [c]) :=
  h.trans (List.sublist_append_left cs [c])

theorem insertName_nodup (l : List Str) (x : Str) (h : l.Nodup) :
    (insertName l x).Nodup := by
  unfold insertName
  split
  · exact h
  · next hx =>
    exact List.Nodup.append h (List.nodup_singleton x)
      (List.disjoint_singleton.mpr hx)

theorem foldl_insert_nodup (f : Str) (pkgsl : List PkgRef) :
    ∀ acc : List Str, acc.Nodup →
      (pkgsl.foldl (fun acc2 pkg =>
        if isFileInPackage f pkg.relativePath then insertName acc2 pkg.name
        else acc2) acc).Nodup := by
  induction pkgsl with
  | nil => intro acc h; exact h
  | cons p ps ih =>
    intro acc h
    rw [List.foldl_cons]
    refine ih _ ?_
    split
    · exact insertName_nodup acc p.name h
    · exact h

theorem affectedPackagesOf_nodup (pkgs : List PkgRef) (c : ConventionalCommit) :
    (affectedPackagesOf pkgs c).Nodup := by
  unfold affectedPackagesOf
  suffices h : ∀ (files : List Str) (acc : List Str), acc.Nodup →
      (files.foldl (fun acc changedFile =>
        pkgs.foldl (fun acc2 pkg =>
          if isFileInPackage changedFile pkg.relativePath then insertName acc2 pkg.name
          else acc2) acc) acc).Nodup by
    exact h _ [] List.nodup_nil
  intro files
  induction files with
  | nil => intro acc h; exact h
  | cons f fs ih =>
    intro acc h
    rw [List.foldl_cons]
    exact ih _ (foldl_insert_nodup f pkgs acc h)

theorem applyToName_fold_sublist (c : ConventionalCommit) (cs : List ConventionalCommit) :
    ∀ names : List Str, names.Nodup → ∀ m : PkgMap,
      (∀ e ∈ m, (e.1 ∈ names → List.Sublist e.2.affectingCommits cs) ∧
                (e.1 ∉ names → List.Sublist e.2.affectingCommits (cs ++ [c]))) →
      ∀ e ∈ names.foldl (applyToName c) m,
        List.Sublist e.2.affectingCommits (cs ++ [c]) := by
  intro names
  induction names with
  | nil =>
    intro _ m hm e he
    exact (hm e he).2 (by simp)
  | cons n ns ih =>
    intro hnd m hm
    rw [List.foldl_cons]
    have hn_not : n ∉ ns := (List.nodup_cons.mp hnd).1
    refine ih (List.nodup_cons.mp hnd).2 _ ?_
    intro e he
    unfold applyToName at he
    cases hg : mapGet m n with
    | none =>
      rw [hg] at he
      constructor
      · intro hin
        exact (hm e he).1 (List.mem_cons_of_mem n hin)
      · intro hnin
        by_cases hen : e.1 = n
        · exact sublist_weaken c
            ((hm e he).1 (by rw [hen]; exact List.mem_cons_self n ns))
        · refine (hm e he).2 ?_
          intro hcon
          rcases List.mem_cons.mp hcon with h1 | h1
          · exact hen h1
          · exact hnin h1
    | some pc =>
      rw [hg] at he
      obtain ⟨e0, hmem0, he0, hk0⟩ := mapGet_mem m n pc hg
      rcases mem_mapSet m n _ e he with rfl | hmem
      · refine ⟨fun hin => absurd hin hn_not, fun _ => ?_⟩
        show List.Sublist (pc.affectingCommits ++ [c]) (cs ++ [c])
        refine List.Sublist.append ?_ (List.Sublist.refl [c])
        rw [← he0]
        exact (hm e0 hmem0).1 (by rw [hk0]; exact List.mem_cons_self n ns)
      · constructor
        · intro hin
          exact (hm e hmem).1 (List.mem_cons_of_mem n hin)
        · intro hnin
          by_cases hen : e.1 = n
          · exact sublist_weaken c
              ((hm e hmem).1 (by rw [hen]; exact List.mem_cons_self n ns))
          · refine (hm e hmem).2 ?_
            intro hcon
            rcases List.mem_cons.mp hcon with h1 | h1
            · exact hen h1
            · exact hnin h1

theorem analyzeState_fold_sublist (pkgs : List PkgRef) :
    ∀ (cs : List ConventionalCommit) (m : PkgMap) (acc : List ConventionalCommit),
      (∀ e ∈ m, List.Sublist e.2.affectingCommits acc) →
      ∀ e ∈ cs.foldl (applyCommitToMap pkgs) m,
        List.Sublist e.2.affectingCommits (acc ++ cs) := by
  intro cs
  induction cs with
  | nil => intro m acc hm e he; simpa using hm e he
  | cons c rest ih =>
    intro m acc hm
    rw [List.foldl_cons]
    intro e he
    have hstep : ∀ e ∈ applyCommitToMap pkgs m c,
        List.Sublist e.2.affectingCommits (acc ++ [c]) := by
      unfold applyCommitToMap
      exact applyToName_fold_sublist c acc (affectedPackagesOf pkgs c)
        (affectedPackagesOf_nodup pkgs c) m
        (fun e he => ⟨fun _ => hm e he, fun _ => sublist_weaken c (hm e he)⟩)
    have h2 := ih _ (acc ++ [c]) hstep e he
    rwa [List.append_assoc, List.singleton_append] at h2

theorem initPkgMap_affecting_nil (pkgs : List PkgRef) :
    ∀ e ∈ initPkgMap pkgs, e.2.affectingCommits = [] := by
  unfold initPkgMap
  suffices h : ∀ (l : List PkgRef) (m : PkgMap), (∀ e ∈ m, e.2.affectingCommits = []) →
      ∀ e ∈ l.foldl (fun m pkg =>
        mapSet m pkg.name ⟨pkg.name, pkg.relativePath, [], .patch⟩) m,
      e.2.affectingCommits = [] by
    exact h pkgs [] (by intro e he; cases he)
  intro l
  induction l with
  | nil => intro m hm; exact hm
  | cons p ps ih =>
    intro m hm
    rw [List.foldl_cons]
    refine ih _ ?_
    intro e he
    rcases mem_mapSet m p.name _ e he with rfl | hmem
    · rfl
    · exact hm e hmem

/-- **C9.** The per-commit affected-package set never contains duplicates,
and each reported package's attributed-commit list is a sublist of the
input commit sequence — so a commit is appended at most once per member
even when several of its changed files fall in that member. -/
theorem analyzePackageChanges_no_duplicates (commits : List ConventionalCommit)
    (pkgs : List PkgRef) :
    (∀ c : ConventionalCommit, (affectedPackagesOf pkgs c).Nodup) ∧
    (∀ pc ∈ analyzePackageChanges commits pkgs,
        List.Sublist pc.affectingCommits commits) := by
  refine ⟨fun c => affectedPackagesOf_nodup pkgs c, ?_⟩
  intro pc hpc
  obtain ⟨hmap, -⟩ := List.mem_filter.mp hpc
  obtain ⟨e, hmem, he⟩ := List.mem_map.mp hmap
  unfold analyzeState at hmem
  have h := analyzeState_fold_sublist pkgs commits (initPkgMap pkgs) []
    (fun e he => by rw [initPkgMap_affecting_nil pkgs e he]) e hmem
  rw [← he]
  simpa using h

/-- Witness for C9, instantiated at the sample run: the major commit's two
changed files in `packages/a` yield a duplicate-free affected set and a
single attribution. -/
theorem analyzePackageChanges_no_duplicates_witness :
    samplePC ∈ analyzePackageChanges sampleCommits samplePkgs ∧
    List.Sublist samplePC.affectingCommits sampleCommits :=
  ⟨by decide,
    (analyzePackageChanges_no_duplicates sampleCommits samplePkgs).2 samplePC (by decide)⟩

/-! ## Workspace resolver (`WorkspaceUtils`) -/

/-- The `workspaces` field of a manifest: array form or object form. -/
inductive WorkspacesField where
  | arr (patterns : List Str)
  | obj (packages : List Str)
deriving Repr, DecidableEq

/-- The manifest fields the resolver reads (`package.json`). -/
structure Manifest where
  name : Option Str := none
  version : Option Str := none
  workspaces : Option WorkspacesField := none
  publishConfig : Bool := false
  isPrivate : Bool := false
deriving Repr, DecidableEq

/-- Result of attempting to read a member manifest: the file may be
missing (silently skipped), unparseable (warned and skipped), or parsed. -/
inductive MemberRead where
  | missing
  | malformed
  | ok (m : Manifest)
deriving Repr, DecidableEq

/-- External collaborators of `WorkspaceUtils`: root manifest access
(`none` models a read/parse failure), glob expansion (`none` models a
throwing pattern) and per-candidate manifest reads. -/
structure WorkspaceEnv where
  rootPath : Str
  rootManifest : Option Manifest
  expandPattern : Str → Option (List Str)
  readMember : Str → MemberRead

/-- `WorkspaceUtils.getIsMonorepo`: true iff the root manifest is readable
and its `workspaces` field is an array with at least one entry (the
object form fails `Array.isArray`); a failed read yields false. -/
def getIsMonorepo (env : WorkspaceEnv) : Bool :=
  match env.rootManifest with
  | none => false
  | some m =>
    match m.workspaces with
    | some (.arr patterns) => decide (0 < patterns.length)
    | _ => false

/-- Node `path.basename` for POSIX paths. -/
def basename (p : Str) : Str :=
  let q := (p.reverse.dropWhile (· == '/')).reverse
  (q.reverse.takeWhile (fun c => !(c == '/'))).reverse

/-- Node `path.join(a, b)` (two-argument POSIX form). -/
def joinPath (a b : Str) : Str := posixNormalize (a ++ '/' :: b)

/-- Lexicographic order on `Str` by code point, standing in for the
`localeCompare`-based sort (no claim depends on the particular order). -/
def strLe : Str → Str → Bool
  | [], _ => true
  | _ :: _, [] => false
  | a :: as, b :: bs => if a = b then strLe as bs else decide (a.toNat < b.toNat)

/-- `WorkspaceUtils.getWorkspacePackages`: empty for single-package repos;
otherwise expand every workspace pattern, keep candidates with a parseable
manifest, build the member records and sort them by name. -/
def getWorkspacePackages (env : WorkspaceEnv) : List WorkspaceMember :=
  if !getIsMonorepo env then []
  else
    match env.rootManifest with
    | none => []
    | some root =>
      let workspacePatterns := match root.workspaces with
        | some (.arr l) => l
        | some (.obj l) => l
        | none => []
      let members := workspacePatterns.foldl (fun acc pattern =>
        match env.expandPattern pattern with
        | none => acc
        | some matchingPaths => acc ++ matchingPaths.filterMap (fun relativePath =>
            match env.readMember relativePath with
            | .missing => none
            | .malformed => none
            | .ok packageJson => some {
                name := match packageJson.name with
                  | some n => if n = [] then basename relativePath else n
                  | none => basename relativePath,
                path := joinPath env.rootPath relativePath,
                relativePath := relativePath,
                version := match packageJson.version with
                  | some v => if v = [] then str "0.0.0" else v
                  | none => str "0.0.0",
                publishable := packageJson.publishConfig,
                isPrivate := packageJson.isPrivate })) []
      members.mergeSort (fun a b => strLe a.name b.name)

/-- `WorkspaceUtils.findPackageByName`. -/
def findPackageByName (env : WorkspaceEnv) (name : Str) : Option WorkspaceMember :=
  (getWorkspacePackages env).find? (fun pkg => pkg.name == name)

/-- `WorkspaceUtils.findPackageByPath` over the resolved member list. -/
def findPackageByPath (env : WorkspaceEnv) (relativePath : Str) : Option WorkspaceMember :=
  findPackageByPathIn (getWorkspacePackages env) relativePath

/-- **C8.** When the repository is not a monorepo (no non-empty
workspace-pattern array, or an unreadable root manifest), the member list
is empty — the root package itself is never a member — and both lookup
functions return none for every input. -/
theorem getWorkspacePackages_not_monorepo (env : WorkspaceEnv)
    (h : getIsMonorepo env = false) :
    getWorkspacePackages env = [] ∧
    (∀ name : Str, findPackageByName env name = none) ∧
    (∀ relativePath : Str, findPackageByPath env relativePath = none) := by
  have hempty : getWorkspacePackages env = [] := by
    unfold getWorkspacePackages
    rw [h]
    rfl
  refine ⟨hempty, ?_, ?_⟩
  · intro name
    unfold findPackageByName
    rw [hempty]
    rfl
  · intro relativePath
    unfold findPackageByPath
    rw [hempty]
    rfl

/-- A single-package environment: the root manifest exists but declares no
`workspaces` field. -/
def singleRepoEnv : WorkspaceEnv :=
  { rootPath := str "/repo",
    rootManifest := some { name := some (str "root"), version := some (str "1.0.0") },
    expandPattern := fun _ => some [],
    readMember := fun _ => .missing }

/-- Witness for C8 at a concrete single-package environment. -/
theorem getWorkspacePackages_not_monorepo_witness :
    getIsMonorepo singleRepoEnv = false ∧
    getWorkspacePackages singleRepoEnv = [] ∧
    findPackageByName singleRepoEnv (str "a") = none ∧
    findPackageByPath singleRepoEnv (str "packages/a") = none := by
  have h : getIsMonorepo singleRepoEnv = false := rfl
  obtain ⟨h1, h2, h3⟩ := getWorkspacePackages_not_monorepo singleRepoEnv h
  exact ⟨h, h1, h2 (str "a"), h3 (str "packages/a")⟩

/-! ## History fetcher / commit assembler (`GitUtils.getCommitsInRange`) -/

/-- External git collaborators used by `getCommitsInRange`:
`tagLines` feeds `getAllTags` (`none` = listing failure); `rootCommitOut`
is the raw output of `git rev-list --max-parents=0 HEAD`; `logLines` maps
a range spec to the lines of `git log --format=... --reverse`; `diffLines`
is the per-commit `git diff-tree` listing (`none` = failure, caught and
turned into `[]`); `parse` is the external conventional-commits parser. -/
structure GitEnv where
  tagLines : Option (List Str)
  rootCommitOut : Str
  logLines : Str → List Str
  diffLines : Str → Option (List Str)
  parse : Str → ParsedCommit

/-- JS `a || b` for a possibly-absent string (empty string is falsy). -/
def jsOr (a : Option Str) (b : Str) : Str :=
  match a with
  | some s => if s = [] then b else s
  | none => b

/-- JS `a || undefined` for a possibly-absent string. -/
def jsOrUndef (a : Option Str) : Option Str :=
  match a with
  | some s => if s = [] then none else some s
  | none => none

/-- `GitUtils.getChangedFilesForCommit`: trimmed, blank lines removed;
a failing diff is warned about and yields `[]`. -/
def getChangedFilesForCommit (env : GitEnv) (commitHash : Str) : List Str :=
  match env.diffLines commitHash with
  | none => []
  | some lines => (lines.map trimStr).filter (fun f => f != [])

/-- Range-resolution step of `getCommitsInRange`: an explicit `fromRef`,
else the latest version tag's name, else the trimmed root commit hash. -/
def resolveStartRef (env : GitEnv) (fromRef : Option Str) : Str :=
  match fromRef with
  | some r => r
  | none =>
    match getLatestVersionTag env.tagLines with
    | some latestTag => latestTag.name
    | none => trimStr env.rootCommitOut

/-- Range-spec construction: the single commit when start and end refs are
(string-)equal, otherwise the exclusive `start..end` form. -/
def buildRangeSpec (startRef toRef : Str) : Str :=
  if startRef = toRef then startRef else startRef ++ str ".." ++ toRef

/-- The commit-collection loop of `getCommitsInRange`, translated exactly:
`if (!result.trim()) { commitsResult.push(result.trim()) }`. -/
def collectLogLines (lines : List Str) : List Str :=
  lines.foldl (fun acc l => if trimStr l = [] then acc ++ [trimStr l] else acc) []

/-- Per-block assembly: split on `|`, skip blocks with fewer than six
fields, reconstruct the message, parse it, and build the record. -/
def assembleCommit (env : GitEnv) (block : Str) : Option ConventionalCommit :=
  let parts := block.splitOn '|'
  if parts.length < 6 then none
  else
    let hash := (parts.get? 0).getD []
    let shortHash := (parts.get? 1).getD []
    let authorName := (parts.get? 2).getD []
    let authorEmail := (parts.get? 3).getD []
    let authorDate := (parts.get? 4).getD []
    let subject := (parts.get? 5).getD []
    let body? := parts.get? 6
    let fullMessage := match body? with
      | some b => if b = [] then subject else subject ++ str "\n\n" ++ b
      | none => subject
    let parsed := env.parse fullMessage
    let changedFiles := getChangedFilesForCommit env hash
    let releaseType := determineReleaseType parsed
    let isBreaking := parsed.notes.any (fun note => note.title == str "BREAKING CHANGE")
    let breakingChange :=
      (parsed.notes.find? (fun note => note.title == str "BREAKING CHANGE")).map (·.text)
    some { hash := hash, shortHash := shortHash, rawMessage := fullMessage,
           type := jsOr parsed.type (str "unknown"),
           scope := jsOrUndef parsed.scope,
           description := jsOr parsed.subject subject,
           body := jsOrUndef parsed.body,
           breakingChange := breakingChange,
           isBreaking := isBreaking,
           releaseType := releaseType,
           author := ⟨authorName, authorEmail, authorDate⟩,
           changedFiles := changedFiles }

/-- `GitUtils.getCommitsInRange`. -/
def getCommitsInRange (env : GitEnv) (fromRef : Option Str) (toRef : Str) :
    List ConventionalCommit :=
  let startRef := resolveStartRef env fromRef
  let rangeSpec := buildRangeSpec startRef toRef
  let commitsResult := collectLogLines (env.logLines rangeSpec)
  if commitsResult = [] then []
  else commitsResult.filterMap (assembleCommit env)

theorem collectLogLines_all_nil (lines : List Str) :
    ∀ x ∈ collectLogLines lines, x = [] := by
  unfold collectLogLines
  suffices h : ∀ (ls : List Str) (acc : List Str), (∀ x ∈ acc, x = []) →
      ∀ x ∈ ls.foldl (fun acc l => if trimStr l = [] then acc ++ [trimStr l] else acc) acc,
      x = [] by
    exact h lines [] (by intro x hx; cases hx)
  intro ls
  induction ls with
  | nil => intro acc hacc; exact hacc
  | cons l rest ih =>
    intro acc hacc
    rw [List.foldl_cons]
    refine ih _ ?_
    split
    · next htrim =>
      intro x hx
      rcases List.mem_append.mp hx with h1 | h1
      · exact hacc x h1
      · rw [List.mem_singleton.mp h1, htrim]
    · exact hacc

theorem assembleCommit_nil (env : GitEnv) : assembleCommit env [] = none := rfl

theorem getCommitsInRange_empty_helper (env : GitEnv) (fromRef : Option Str)
    (toRef : Str) : getCommitsInRange env fromRef toRef = [] := by
  unfold getCommitsInRange
  set lines := collectLogLines
    (env.logLines (buildRangeSpec (resolveStartRef env fromRef) toRef)) with hlines
  by_cases h : lines = []
  · rw [if_pos h]
  · rw [if_neg h]
    have hall := collectLogLines_all_nil
      (env.logLines (buildRangeSpec (resolveStartRef env fromRef) toRef))
    rw [← hlines] at hall
    rw [List.filterMap_eq_nil_iff]
    intro x hx
    rw [hall x hx]
    exact assembleCommit_nil env

/-- **C2.** As written, `getCommitsInRange` returns the empty sequence for
every environment and range: the collection loop keeps a log line only
when its trimmed form is empty (`if (!result.trim())`), so well-formed
pipe-delimited entries are all discarded and the empty survivors are then
dropped as having fewer than six fields — no raw entry ever produces a
record. -/
theorem getCommitsInRange_always_empty (env : GitEnv) (fromRef : Option Str)
    (toRef : Str) : getCommitsInRange env fromRef toRef = [] :=
  getCommitsInRange_empty_helper env fromRef toRef

/-- A well-formed raw log line: full hash, short hash, author name, email,
ISO date, subject, body. -/
def goodLogLine : Str := str "r|r0|Alice|alice@example.com|2024-01-01T00:00:00+00:00|feat: first|"

/-- A one-commit repository whose sole (root) commit is `r` and whose
`HEAD` is `r`: the sole-rev spec `"r"` lists that commit, while the
exclusive range `r..HEAD` is empty, exactly as git would answer. -/
def envSingleCommit : GitEnv :=
  { tagLines := some [],
    rootCommitOut := str "r\n",
    logLines := fun rangeSpec => if rangeSpec = str "r" then [goodLogLine] else [],
    diffLines := fun _ => some [str "README.md"],
    parse := fun _ => { type := some (str "feat"), subject := some (str "first") } }

/-- **C3.** With no `fromRef` and no version tags, the resolved lower
bound is the root commit, but the range is built in the exclusive
`root..HEAD` form — the `startRef === toRef` special case compares the
resolved hash against the literal `"HEAD"` — so in a repository whose only
commit is the root commit the call returns zero records, not one. -/
theorem getCommitsInRange_root_exclusive :
    resolveStartRef envSingleCommit none = str "r" ∧
    buildRangeSpec (resolveStartRef envSingleCommit none) (str "HEAD") = str "r..HEAD" ∧
    buildRangeSpec (resolveStartRef envSingleCommit none) (str "HEAD") ≠ str "r" ∧
    envSingleCommit.logLines (str "r") = [goodLogLine] ∧
    getCommitsInRange envSingleCommit none (str "HEAD") = [] := by
  refine ⟨by decide, by decide, by decide, ?_, ?_⟩
  · show (if (str "r" : Str) = str "r" then [goodLogLine] else []) = [goodLogLine]
    rw [if_pos rfl]
  · exact getCommitsInRange_empty_helper envSingleCommit none (str "HEAD")

end Bunr
